import Mathlib

/-!
Shallow embedding of the expense-tracking service in `src/main.py`.

Documents (the flexible `data` body of an expense, and request payloads)
are JSON-like values; Python `dict`s are modelled as ordered association
lists (`Doc`), with Python's in-place-update semantics.  Persistence is
abstracted: the store keeps the parsed document rather than its JSON text
(`json.dumps` / `json.loads` round-tripping is treated as part of the
storage mechanics), and `date` values are represented by their ISO
strings.  Timestamps and generated ids enter each operation as explicit
parameters.
-/

/-- A JSON-like dynamic value (Python object stored in an expense body). -/
inductive JVal where
  | null : JVal
  | bool : Bool → JVal
  | num : Int → JVal
  | str : String → JVal
  | arr : List JVal → JVal
  | obj : List (String × JVal) → JVal

/-- A Python dict with string keys, as an insertion-ordered association list. -/
abbrev Doc := List (String × JVal)

/-- Python `d.get(k)` / `d[k]`: the value at the first (for real dicts, only)
occurrence of `k`. -/
def dictGet (d : Doc) (k : String) : Option JVal :=
  match d with
  | [] => none
  | (k', v) :: rest => if k' = k then some v else dictGet rest k

/-- Python `d[k] = v`: replace the value in place if the key exists,
otherwise append the new entry at the end. -/
def dictSet (d : Doc) (k : String) (v : JVal) : Doc :=
  match d with
  | [] => [(k, v)]
  | (k', v') :: rest => if k' = k then (k', v) :: rest else (k', v') :: dictSet rest k v

/-- Python `d.update(p)`: set each entry of `p` in order. -/
def dictUpdate (d : Doc) (p : Doc) : Doc :=
  p.foldl (fun acc kv => dictSet acc kv.1 kv.2) d

/-- Python truthiness of a JSON-like value (`bool(v)` is `False`). -/
def pyFalsy : JVal → Bool
  | JVal.null => true
  | JVal.bool b => !b
  | JVal.num n => n == 0
  | JVal.str s => s == ""
  | JVal.arr xs => xs.isEmpty
  | JVal.obj kvs => kvs.isEmpty

/-- Python `payload.get(k) is None`: the key is absent or its value is `None`. -/
def isNoneAt (d : Doc) (k : String) : Bool :=
  match dictGet d k with
  | none => true
  | some JVal.null => true
  | some _ => false

/-! ### Decimal rendering and parsing (Python `str`/`int` on version counters) -/

/-- The decimal digit character for `m < 10` (`'?'` otherwise, unused). -/
def digitChar (m : Nat) : Char :=
  if m = 0 then '0' else if m = 1 then '1' else if m = 2 then '2'
  else if m = 3 then '3' else if m = 4 then '4' else if m = 5 then '5'
  else if m = 6 then '6' else if m = 7 then '7' else if m = 8 then '8'
  else if m = 9 then '9' else '?'

/-- The value of a decimal digit character, `none` for non-digits. -/
def digitVal (c : Char) : Option Nat :=
  if c = '0' then some 0 else if c = '1' then some 1 else if c = '2' then some 2
  else if c = '3' then some 3 else if c = '4' then some 4 else if c = '5' then some 5
  else if c = '6' then some 6 else if c = '7' then some 7 else if c = '8' then some 8
  else if c = '9' then some 9 else none

/-- Fuel-driven decimal rendering (`fuel` bounds the recursion depth). -/
def natToStrAux : Nat → Nat → List Char
  | 0, _ => []
  | fuel + 1, n =>
    if n < 10 then [digitChar n]
    else natToStrAux fuel (n / 10) ++ [digitChar (n % 10)]

/-- Python `str(n)` for a natural number, as a character list. -/
def natToStr (n : Nat) : List Char := natToStrAux (n + 1) n

/-- Python `str(k)` for an integer, as a character list. -/
def intToStr (k : Int) : List Char :=
  if k < 0 then '-' :: natToStr k.natAbs else natToStr k.natAbs

/-- Accumulating decimal parser over a run of digit characters. -/
def parseDigitsAux (acc : Nat) : List Char → Option Nat
  | [] => some acc
  | c :: cs =>
    match digitVal c with
    | some d => parseDigitsAux (acc * 10 + d) cs
    | none => none

/-- Parse a nonempty run of decimal digits. -/
def parseDigits (s : List Char) : Option Nat :=
  if s.isEmpty then none else parseDigitsAux 0 s

/-- Models Python `int(s)` on an optional sign followed by decimal digits
(the shapes arising in schema-version suffixes); other accepted Python
forms such as surrounding whitespace or underscores are not modelled. -/
def pyInt : List Char → Option Int
  | [] => none
  | c :: cs =>
    if c = '-' then (parseDigits cs).map (fun n => -(n : Int))
    else if c = '+' then (parseDigits cs).map (fun n => (n : Int))
    else (parseDigits (c :: cs)).map (fun n => (n : Int))

/-- Models Python `s.split(sep)[-1]`: the segment after the last
occurrence of `sep` (the whole string when `sep` does not occur). -/
def afterLastSep (sep : Char) : List Char → List Char
  | [] => []
  | c :: cs =>
    if sep ∈ cs then afterLastSep sep cs
    else if c = sep then cs
    else c :: cs

/-! ### Schema versioning (`bump_schema_version`, `get_schema_version`) -/

/-- The `schema_meta` row for the `"expense"` schema. -/
structure VersionRec where
  version : List Char
  updated_at : String

/-- One `schema_fields` row, as loaded by `load_fields` (the `type` column
is free text at the storage layer; `enum_values` is the decoded JSON list,
`none` when the column is NULL). -/
structure FieldDef where
  key : String
  label : String
  type : String
  required : Bool
  enabled : Bool
  description : Option String
  enum_values : Option (List String)

/-- One `expenses` row (with `data` kept as the parsed document). -/
structure ExpenseRow where
  id : String
  created_at : String
  updated_at : String
  schema_version : List Char
  data : Doc

/-- The whole durable store (the four collections minus aliases, which are
out of the claims' scope). -/
structure St where
  meta : Option VersionRec
  fields : List FieldDef
  expenses : List ExpenseRow

/-- The version computation inside `bump_schema_version`: from today's
date string and the stored version (if any), derive the next version
`<today>.<n>`. -/
def nextVersion (today : List Char) : Option (List Char) → List Char
  | none => today ++ '.' :: intToStr 1
  | some prev =>
    if today.isPrefixOf prev then
      match pyInt (afterLastSep '.' prev) with
      | some n => today ++ '.' :: intToStr (n + 1)
      | none => today ++ '.' :: intToStr 1
    else today ++ '.' :: intToStr 1

/-- `bump_schema_version`: derive the next version and persist it together
with the bump timestamp; returns the new version. -/
def bump_schema_version (today : List Char) (now : String) (st : St) : List Char × St :=
  let v := nextVersion today (st.meta.map (·.version))
  (v, { st with meta := some ⟨v, now⟩ })

/-- `get_schema_version`: the stored version, bootstrapping via a first
bump when none exists yet. -/
def get_schema_version (today : List Char) (now : String) (st : St) : List Char × St :=
  match st.meta with
  | some m => (m.version, st)
  | none => bump_schema_version today now st

/-- The version counter: the parsed suffix after the last dot. -/
def versionCounter (v : List Char) : Option Int := pyInt (afterLastSep '.' v)

/-! ### Validator (`validate_against_schema`) -/

/-- A rejection raised by `validate_against_schema` (the structured content
of the HTTP 400 detail message). -/
inductive ValErr where
  | missingRequired (key : String)
  | invalidEnum (key : String) (value : JVal) (allowed : List String)

/-- Service-level errors surfaced to the caller. -/
inductive ApiErr where
  | notFound
  | conflict
  | validation (e : ValErr)

/-- The `enabled` dict of `validate_against_schema`: lookup of an enabled
field by key (field keys are unique, so first match = only match). -/
def findEnabledField (fields : List FieldDef) (k : String) : Option FieldDef :=
  (fields.filter (fun f => f.enabled)).find? (fun f => f.key == k)

/-- Python `f.get("enum_values") or []`. -/
def optsOf (f : FieldDef) : List String :=
  match f.enum_values with
  | some l => l
  | none => []

/-- Python `v in opts` for a dynamic value against a list of strings
(only a string can equal a string). -/
def jvalMemStr : JVal → List String → Bool
  | JVal.str s, opts => opts.contains s
  | _, _ => false

/-- The condition under which the enum loop rejects the entry `(k, v)`. -/
def enumViolation (fields : List FieldDef) (k : String) (v : JVal) : Bool :=
  match findEnabledField fields k with
  | some f => f.type == "enum" && !(optsOf f).isEmpty && !jvalMemStr v (optsOf f)
  | none => false

/-- The allowed list reported for key `k` (as the code reads it at the
point of the raise). -/
def enumOptsOf (fields : List FieldDef) (k : String) : List String :=
  match findEnabledField fields k with
  | some f => optsOf f
  | none => []

/-- `validate_against_schema`: required check over all fields in order,
then the enum check over the payload entries in order; the first offender
raises. -/
def validate (fields : List FieldDef) (payload : Doc) : Except ValErr Unit :=
  match fields.find? (fun f => f.enabled && f.required && isNoneAt payload f.key) with
  | some f => .error (.missingRequired f.key)
  | none =>
    match payload.find? (fun kv => enumViolation fields kv.1 kv.2) with
    | some kv => .error (.invalidEnum kv.1 kv.2 (enumOptsOf fields kv.1))
    | none => .ok ()

/-! ### Schema mutations (`create_field`, `update_field`, `delete_field`) -/

/-- `CreateFieldRequest` after transport defaults are applied. -/
structure CreateFieldReq where
  key : String
  label : String
  type : String
  required : Bool
  enabled : Bool
  description : Option String
  enum_values : Option (List String)

/-- `create_field`: conflict when the key exists (any enabled state),
otherwise insert and bump (an empty `enum_values` list is falsy and is
stored as NULL). -/
def create_field (req : CreateFieldReq) (today : List Char) (now : String) (st : St) :
    Except ApiErr St :=
  if st.fields.any (fun f => f.key == req.key) then .error .conflict
  else
    let storedEnum := match req.enum_values with
      | some l => if l.isEmpty then none else some l
      | none => none
    let f : FieldDef :=
      ⟨req.key, req.label, req.type, req.required, req.enabled, req.description, storedEnum⟩
    .ok (bump_schema_version today now { st with fields := st.fields ++ [f] }).2

/-- `UpdateFieldRequest`: each attribute optional; `model_dump`
with `exclude_none` keeps exactly the `some` ones. -/
structure UpdateFieldReq where
  label : Option String
  type : Option String
  required : Option Bool
  enabled : Option Bool
  description : Option String
  enum_values : Option (List String)

/-- The request carries no change (`updates` dict empty). -/
def isEmptyReq (r : UpdateFieldReq) : Bool :=
  r.label.isNone && r.type.isNone && r.required.isNone && r.enabled.isNone &&
    r.description.isNone && r.enum_values.isNone

/-- Apply the present attributes of the request over a field row
(the generated `UPDATE ... SET` statement). -/
def applyFieldPatch (f : FieldDef) (r : UpdateFieldReq) : FieldDef :=
  { f with
    label := r.label.getD f.label
    type := r.type.getD f.type
    required := r.required.getD f.required
    enabled := r.enabled.getD f.enabled
    description := match r.description with | some d => some d | none => f.description
    enum_values := match r.enum_values with | some l => some l | none => f.enum_values }

/-- `update_field`: not-found when the key is absent; an empty change set
returns without touching storage or version; otherwise apply and bump. -/
def update_field (key : String) (req : UpdateFieldReq) (today : List Char) (now : String)
    (st : St) : Except ApiErr St :=
  if st.fields.any (fun f => f.key == key) then
    if isEmptyReq req then .ok st
    else
      let fields' := st.fields.map (fun f => if f.key == key then applyFieldPatch f req else f)
      .ok (bump_schema_version today now { st with fields := fields' }).2
  else .error .notFound

/-- `delete_field`: not-found when the key is absent; hard delete removes
the row, soft delete sets `enabled=0`; both bump. -/
def delete_field (key : String) (hard : Bool) (today : List Char) (now : String)
    (st : St) : Except ApiErr St :=
  if st.fields.any (fun f => f.key == key) then
    let fields' :=
      if hard then st.fields.filter (fun f => !(f.key == key))
      else st.fields.map (fun f => if f.key == key then { f with enabled := false } else f)
    .ok (bump_schema_version today now { st with fields := fields' }).2
  else .error .notFound

/-- The initial field set inserted by `seed_schema_if_empty`. -/
def seededFields : List FieldDef :=
  [⟨"date", "Fecha", "date", true, true, some "Fecha del gasto", none⟩,
   ⟨"amount", "Monto", "number", true, true, some "Monto total", none⟩,
   ⟨"currency", "Moneda", "enum", true, true, some "Código moneda", some ["ARS", "USD"]⟩,
   ⟨"vendor", "Proveedor", "string", false, true, some "Proveedor / comercio", none⟩,
   ⟨"category", "Categoría", "string", false, true, some "Eje principal", none⟩,
   ⟨"payment_method", "Medio de pago", "string", false, true, some "Efectivo / tarjeta / etc.", none⟩,
   ⟨"client", "Cliente", "string", false, true, some "Cliente (si aplica)", none⟩,
   ⟨"concept", "Concepto", "string", false, true, some "Descripción breve", none⟩,
   ⟨"notes", "Notas", "string", false, true, some "Observaciones", none⟩,
   ⟨"status", "Estado", "enum", false, true, some "pending_confirmation/confirmed/rejected",
     some ["pending_confirmation", "confirmed", "rejected"]⟩]

/-! ### Expense operations -/

/-- Python `v is None` (JSON null / Python `None`). -/
def isNullV : JVal → Bool
  | JVal.null => true
  | _ => false

/-- The merge of `update_expense`:
`data.update({k: v for k, v in new_data.items() if v is not None})`. -/
def mergeNonNull (data patch : Doc) : Doc :=
  dictUpdate data (patch.filter (fun kv => !isNullV kv.2))

/-- The full mutation of the loaded document: optional non-null merge,
then the status override applied last. -/
def applyExpensePatch (data : Doc) (patch : Option Doc) (statusOverride : Option String) : Doc :=
  let d1 := match patch with
    | some p => mergeNonNull data p
    | none => data
  match statusOverride with
  | some s => dictSet d1 "status" (JVal.str s)
  | none => d1

/-- The response of `create_expense`. -/
structure CreateSummary where
  id : String
  status : JVal
  stored : Bool

/-- Python `payload.get("status") or "confirmed"`. -/
def summaryStatus (payload : Doc) : JVal :=
  match dictGet payload "status" with
  | some v => if pyFalsy v then JVal.str "confirmed" else v
  | none => JVal.str "confirmed"

/-- `create_expense`: validate against the current fields, then store the
document verbatim stamped with the current schema version. -/
def create_expense (payload : Doc) (today : List Char) (now : String) (newId : String)
    (st : St) : Except ValErr (St × CreateSummary) :=
  match validate st.fields payload with
  | .error e => .error e
  | .ok _ =>
    let vs := get_schema_version today now st
    let row : ExpenseRow := ⟨newId, now, now, vs.1, payload⟩
    .ok ({ vs.2 with expenses := vs.2.expenses ++ [row] }, ⟨newId, summaryStatus payload, true⟩)

/-- The response document `{"id": ..., "created_at": ..., "updated_at": ...,
"schema_version": ..., **data}` (the `**data` spread applied last). -/
def expenseView (r : ExpenseRow) : Doc :=
  dictUpdate
    [("id", JVal.str r.id), ("created_at", JVal.str r.created_at),
     ("updated_at", JVal.str r.updated_at), ("schema_version", JVal.str ⟨r.schema_version⟩)]
    r.data

/-- `get_expense`: lookup by id. -/
def get_expense (st : St) (expenseId : String) : Except ApiErr Doc :=
  match st.expenses.find? (fun r => r.id == expenseId) with
  | none => .error .notFound
  | some r => .ok (expenseView r)

/-- `update_expense`: load, merge, validate the merged document, and only
then write `updated_at` and `data` (the `schema_version` column is not in
the UPDATE statement); returns the re-read record.  The state is returned
in both outcomes: an exception leaves the store untouched. -/
def update_expense (st : St) (expenseId : String) (patch : Option Doc)
    (statusOverride : Option String) (now : String) : St × Except ApiErr Doc :=
  match st.expenses.find? (fun r => r.id == expenseId) with
  | none => (st, .error .notFound)
  | some r =>
    let data := applyExpensePatch r.data patch statusOverride
    match validate st.fields data with
    | .error e => (st, .error (.validation e))
    | .ok _ =>
      let rows := st.expenses.map
        (fun x => if x.id == expenseId then { x with updated_at := now, data := data } else x)
      let st' := { st with expenses := rows }
      (st', get_expense st' expenseId)

/-! ### Listing (`list_expenses`) -/

/-- A calendar date as produced by `date.fromisoformat`. -/
structure PyDate where
  y : Nat
  m : Nat
  d : Nat

/-- Gregorian leap year. -/
def isLeap (y : Nat) : Bool := (y % 4 == 0 && y % 100 != 0) || y % 400 == 0

/-- Days in a month. -/
def daysInMonth (y m : Nat) : Nat :=
  if m = 2 then (if isLeap y then 29 else 28)
  else if m = 4 ∨ m = 6 ∨ m = 9 ∨ m = 11 then 30
  else 31

/-- Models `date.fromisoformat` on the canonical `YYYY-MM-DD` shape;
anything else fails (raises). -/
def dateFromIso (s : String) : Option PyDate :=
  match s.data with
  | [y1, y2, y3, y4, h1, m1, m2, h2, d1, d2] =>
    if h1 = '-' ∧ h2 = '-' then
      match digitVal y1, digitVal y2, digitVal y3, digitVal y4,
            digitVal m1, digitVal m2, digitVal d1, digitVal d2 with
      | some a, some b, some c, some d, some e, some f, some g, some h =>
        let yy := ((a * 10 + b) * 10 + c) * 10 + d
        let mm := e * 10 + f
        let dd := g * 10 + h
        if 1 ≤ yy ∧ 1 ≤ mm ∧ mm ≤ 12 ∧ 1 ≤ dd ∧ dd ≤ daysInMonth yy mm then
          some ⟨yy, mm, dd⟩
        else none
      | _, _, _, _, _, _, _, _ => none
    else none
  | _ => none

/-- Python ordering on dates (lexicographic on year, month, day). -/
def dateLtb (a b : PyDate) : Bool :=
  a.y < b.y || (a.y == b.y && (a.m < b.m || (a.m == b.m && a.d < b.d)))

/-- Python `s.lower()` (ASCII case folding suffices for the stored data). -/
def lowerStr (s : String) : String := ⟨s.data.map Char.toLower⟩

/-- Python `(data.get(k) or "").lower()`: absent or falsy values give `""`,
a truthy string is lowered, any other truthy value raises (`none`). -/
def getLowerOrEmpty (d : Doc) (k : String) : Option String :=
  match dictGet d k with
  | none => some ""
  | some v =>
    if pyFalsy v then some ""
    else match v with
      | JVal.str s => some (lowerStr s)
      | _ => none

/-- One exact case-insensitive filter of `list_expenses`: `none` when the
comparison raises; a falsy (absent or empty) query keeps the row. -/
def exactFilter (d : Doc) (k : String) (query : Option String) : Option Bool :=
  match query with
  | none => some true
  | some qv =>
    if qv == "" then some true
    else match getLowerOrEmpty d k with
      | none => none
      | some s => some (s == lowerStr qv)

/-- Code-point lexicographic comparison, modelling SQLite `ORDER BY` on the
ISO-timestamp TEXT column. -/
def strLtb : List Char → List Char → Bool
  | [], [] => false
  | [], _ :: _ => true
  | _ :: _, [] => false
  | a :: as, b :: bs =>
    if a.toNat < b.toNat then true
    else if b.toNat < a.toNat then false
    else strLtb as bs

/-- `a` sorts at or before `b` under `created_at DESC`. -/
def rowGe (a b : ExpenseRow) : Bool := !strLtb a.created_at.data b.created_at.data

/-- Insertion into a descending-sorted list. -/
def insertRowDesc (r : ExpenseRow) : List ExpenseRow → List ExpenseRow
  | [] => [r]
  | x :: xs => if rowGe r x then r :: x :: xs else x :: insertRowDesc r xs

/-- `SELECT * FROM expenses ORDER BY created_at DESC`. -/
def sortByCreatedDesc (rows : List ExpenseRow) : List ExpenseRow :=
  rows.foldr insertRowDesc []

/-- JSON string escaping (the characters arising in stored data). -/
def escapeChar (c : Char) : List Char :=
  if c = '\\' then ['\\', '\\']
  else if c = '"' then ['\\', '"']
  else if c = '\n' then ['\\', 'n']
  else if c = '\t' then ['\\', 't']
  else if c = '\r' then ['\\', 'r']
  else [c]

/-- A JSON string literal. -/
def jstr (s : String) : List Char :=
  '"' :: (s.data.map escapeChar).flatten ++ ['"']

mutual

/-- Models `json.dumps(v, ensure_ascii=False)` with the default
separators. -/
def jdumpsVal : JVal → List Char
  | JVal.null => "null".data
  | JVal.bool true => "true".data
  | JVal.bool false => "false".data
  | JVal.num n => intToStr n
  | JVal.str s => jstr s
  | JVal.arr xs => '[' :: jdumpsArr xs ++ [']']
  | JVal.obj kvs => '\x7b' :: jdumpsObj kvs ++ ['\x7d']

/-- Array elements joined by `", "`. -/
def jdumpsArr : List JVal → List Char
  | [] => []
  | [x] => jdumpsVal x
  | x :: y :: rest => jdumpsVal x ++ ',' :: ' ' :: jdumpsArr (y :: rest)

/-- Object entries `"k": v` joined by `", "`. -/
def jdumpsObj : List (String × JVal) → List Char
  | [] => []
  | [(k, v)] => jstr k ++ ':' :: ' ' :: jdumpsVal v
  | (k, v) :: x :: rest => (jstr k ++ ':' :: ' ' :: jdumpsVal v) ++ ',' :: ' ' :: jdumpsObj (x :: rest)

end

/-- The serialized form of a whole document. -/
def jdumpsDoc (d : Doc) : List Char := jdumpsVal (JVal.obj d)

/-- Substring test (Python `needle in hay`). -/
def strContains (needle : List Char) : List Char → Bool
  | [] => needle.isEmpty
  | c :: t => needle.isPrefixOf (c :: t) || strContains needle t

/-- The per-row filter body of the `list_expenses` loop, in source order:
date parse, date range, the four exact filters, then the free-text `q`
check; `none` models an exception escaping the handler. -/
def rowKeep (fromD toD : Option PyDate) (vendor client category status q : Option String)
    (r : ExpenseRow) : Option Bool :=
  match dictGet r.data "date" with
  | some (JVal.str ds) =>
    match dateFromIso ds with
    | some d =>
      if (match fromD with | some f => dateLtb d f | none => false) then some false
      else if (match toD with | some t => dateLtb t d | none => false) then some false
      else match exactFilter r.data "vendor" vendor with
        | none => none
        | some false => some false
        | some true => match exactFilter r.data "client" client with
          | none => none
          | some false => some false
          | some true => match exactFilter r.data "category" category with
            | none => none
            | some false => some false
            | some true => match exactFilter r.data "status" status with
              | none => none
              | some false => some false
              | some true =>
                match q with
                | none => some true
                | some qs =>
                  if qs == "" then some true
                  else some (strContains (qs.data.map Char.toLower)
                    ((jdumpsDoc r.data).map Char.toLower))
    | none => none
  | _ => none

/-- The collection loop over the limited window. -/
def collectRows (fromD toD : Option PyDate) (vendor client category status q : Option String) :
    List ExpenseRow → Option (List Doc)
  | [] => some []
  | r :: rest =>
    match rowKeep fromD toD vendor client category status q r with
    | none => none
    | some true =>
      (collectRows fromD toD vendor client category status q rest).map
        (fun items => expenseView r :: items)
    | some false => collectRows fromD toD vendor client category status q rest

/-- `min(max(limit, 1), 200)` as a take count. -/
def clampLimit (limit : Int) : Nat := (min (max limit 1) 200).toNat

/-- `list_expenses`: the SQL query takes the `clampLimit` most recent rows
FIRST, and only then applies the filters in Python. -/
def list_expenses (fromD toD : Option PyDate) (vendor client category status q : Option String)
    (limit : Int) (st : St) : Option (List Doc) :=
  collectRows fromD toD vendor client category status q
    ((sortByCreatedDesc st.expenses).take (clampLimit limit))

/-! ### Auxiliary definitions for the statements and concrete scenarios -/

/-- What a successful schema mutation guarantees about the resulting state
`st1`, relative to the previously current version `v0`: a changed current
version `v1`, and stamping of any expense created immediately afterwards
with `v1`. -/
def versionFacts (today : List Char) (now1 now2 : String) (v0 : List Char) (st1 : St) : Prop :=
  ∃ v1 : List Char,
    st1.meta = some ⟨v1, now1⟩ ∧
    v1 ≠ v0 ∧
    (get_schema_version today now2 st1).1 = v1 ∧
    ∀ payload newId st2 summ,
      create_expense payload today now2 newId st1 = .ok (st2, summ) →
      ∃ row : ExpenseRow, st2.expenses = st1.expenses ++ [row] ∧
        row.schema_version = v1 ∧ row.data = payload

/-- A stored expense written under schema version `2025-01-01.1`. -/
def rowC1 : ExpenseRow :=
  ⟨"exp_1", "2025-01-02T10:00:00", "2025-01-02T10:00:00", "2025-01-01.1".data,
   [("date", JVal.str "2025-01-02"), ("amount", JVal.num 5),
    ("currency", JVal.str "ARS"), ("status", JVal.str "confirmed")]⟩

/-- A store whose current schema version (`2025-06-01.3`) is newer than the
version stamped on the stored expense. -/
def stC1 : St := ⟨some ⟨"2025-06-01.3".data, "T0"⟩, seededFields, [rowC1]⟩

/-- A store with the seeded schema and no expenses. -/
def seedSt : St := ⟨some ⟨"2025-06-01.1".data, "T0"⟩, seededFields, []⟩

/-- A candidate document whose `currency` is not in the seeded allowed list. -/
def payloadEUR : Doc :=
  [("date", JVal.str "2025-02-03"), ("amount", JVal.num 10), ("currency", JVal.str "EUR")]

/-- A candidate document with no `currency` value at all. -/
def payloadNoCurrency : Doc :=
  [("date", JVal.str "2025-02-03"), ("amount", JVal.num 10)]

/-- A store with no schema fields (validation is then vacuous). -/
def stNoFields : St := ⟨some ⟨"2025-06-01.1".data, "T0"⟩, [], []⟩

/-- A document carrying the unmodeled key `extra.foo = "bar"`. -/
def payloadExtra : Doc :=
  [("date", JVal.str "2025-02-03"), ("amount", JVal.num 10),
   ("currency", JVal.str "ARS"), ("extra", JVal.obj [("foo", JVal.str "bar")])]

/-- The newest stored expense (no vendor). -/
def rowNewC8 : ExpenseRow :=
  ⟨"exp_new", "2025-01-02T00:00:00", "2025-01-02T00:00:00", "2025-01-01.1".data,
   [("date", JVal.str "2025-01-02"), ("amount", JVal.num 2), ("currency", JVal.str "ARS")]⟩

/-- An older stored expense from vendor "Acme". -/
def rowOldC8 : ExpenseRow :=
  ⟨"exp_old", "2025-01-01T00:00:00", "2025-01-01T00:00:00", "2025-01-01.1".data,
   [("date", JVal.str "2025-01-01"), ("amount", JVal.num 1), ("currency", JVal.str "ARS"),
    ("vendor", JVal.str "Acme")]⟩

/-- A store with two expenses, the matching one older than the window. -/
def stC8 : St := ⟨some ⟨"2025-01-01.1".data, "T0"⟩, seededFields, [rowNewC8, rowOldC8]⟩

/-- A store whose schema-version suffix is corrupt (`2025-03-04.x7`). -/
def stC7 : St := ⟨some ⟨"2025-03-04.x7".data, "T0"⟩, [], []⟩

/-- A store with seeded fields but no version row yet. -/
def stNoMeta : St := ⟨none, seededFields, []⟩

/-- A new-field request used to exercise `create_field`. -/
def reqProject : CreateFieldReq :=
  ⟨"project", "Proyecto", "string", false, true, none, none⟩

/-- The empty field-update request (no attribute present). -/
def emptyFieldReq : UpdateFieldReq := ⟨none, none, none, none, none, none⟩

/-! ## Lemmas and theorems -/

/-! ### Lemmas about rendering, parsing and splitting -/

theorem digitVal_digitChar {m : Nat} (h : m < 10) : digitVal (digitChar m) = some m := by
  unfold digitChar
  split_ifs with h0 h1 h2 h3 h4 h5 h6 h7 h8 h9 <;> (try subst_vars) <;> first
    | decide
    | omega

theorem digitChar_ne_dash (m : Nat) : digitChar m ≠ '-' := by
  unfold digitChar
  split_ifs <;> decide

theorem digitChar_ne_plus (m : Nat) : digitChar m ≠ '+' := by
  unfold digitChar
  split_ifs <;> decide

theorem digitChar_ne_dot (m : Nat) : digitChar m ≠ '.' := by
  unfold digitChar
  split_ifs <;> decide

theorem natToStrAux_fuel_irrel : ∀ f1 f2 n, n < f1 → n < f2 →
    natToStrAux f1 n = natToStrAux f2 n := by
  intro f1
  induction f1 with
  | zero => intro f2 n h1 _; omega
  | succ f1' ih =>
    intro f2 n h1 h2
    match f2 with
    | 0 => omega
    | f2' + 1 =>
      simp only [natToStrAux]
      by_cases hlt : n < 10
      · simp [hlt]
      · simp only [hlt, if_false]
        have hdiv : n / 10 < n := Nat.div_lt_self (by omega) (by omega)
        rw [ih f2' (n / 10) (by omega) (by omega)]

theorem natToStr_small {n : Nat} (h : n < 10) : natToStr n = [digitChar n] := by
  simp [natToStr, natToStrAux, h]

theorem natToStr_large {n : Nat} (h : 10 ≤ n) :
    natToStr n = natToStr (n / 10) ++ [digitChar (n % 10)] := by
  have hdiv : n / 10 < n := Nat.div_lt_self (by omega) (by omega)
  have hn10 : ¬ n < 10 := by omega
  have hstep : natToStr n = natToStrAux n (n / 10) ++ [digitChar (n % 10)] := by
    show natToStrAux (n + 1) n = _
    simp only [natToStrAux, hn10, if_false]
  rw [hstep, natToStrAux_fuel_irrel n (n / 10 + 1) (n / 10) hdiv (by omega)]
  rfl

theorem natToStr_ne_nil (n : Nat) : natToStr n ≠ [] := by
  by_cases h : n < 10
  · rw [natToStr_small h]; simp
  · rw [natToStr_large (by omega)]; simp

theorem natToStr_mem (n : Nat) : ∀ c ∈ natToStr n, ∃ m, m < 10 ∧ c = digitChar m := by
  induction n using Nat.strong_induction_on with
  | _ n ih =>
    intro c hc
    by_cases h : n < 10
    · rw [natToStr_small h] at hc
      simp at hc
      exact ⟨n, h, hc⟩
    · rw [natToStr_large (by omega)] at hc
      rcases List.mem_append.mp hc with h1 | h2
      · exact ih (n / 10) (Nat.div_lt_self (by omega) (by omega)) c h1
      · simp at h2
        exact ⟨n % 10, Nat.mod_lt _ (by omega), h2⟩

theorem natToStr_head (n : Nat) : ∃ m cs, m < 10 ∧ natToStr n = digitChar m :: cs := by
  induction n using Nat.strong_induction_on with
  | _ n ih =>
    by_cases h : n < 10
    · exact ⟨n, [], h, natToStr_small h⟩
    · obtain ⟨m, cs, hm, heq⟩ := ih (n / 10) (Nat.div_lt_self (by omega) (by omega))
      refine ⟨m, cs ++ [digitChar (n % 10)], hm, ?_⟩
      rw [natToStr_large (by omega), heq]
      simp

theorem parseDigitsAux_append (s t : List Char) (acc : Nat) :
    parseDigitsAux acc (s ++ t) =
      match parseDigitsAux acc s with
      | some a => parseDigitsAux a t
      | none => none := by
  induction s generalizing acc with
  | nil => simp [parseDigitsAux]
  | cons c cs ih =>
    simp only [List.cons_append, parseDigitsAux]
    cases digitVal c with
    | none => simp
    | some d => simp [ih]

theorem parseDigitsAux_natToStr (n : Nat) :
    ∀ acc, parseDigitsAux acc (natToStr n) = some (acc * 10 ^ (natToStr n).length + n) := by
  induction n using Nat.strong_induction_on with
  | _ n ih =>
    intro acc
    by_cases h : n < 10
    · rw [natToStr_small h]
      simp [parseDigitsAux, digitVal_digitChar h]
    · rw [natToStr_large (by omega)]
      rw [parseDigitsAux_append]
      rw [ih (n / 10) (Nat.div_lt_self (by omega) (by omega)) acc]
      simp only [parseDigitsAux, digitVal_digitChar (Nat.mod_lt n (by omega) : n % 10 < 10)]
      have hlen : (natToStr (n / 10) ++ [digitChar (n % 10)]).length
          = (natToStr (n / 10)).length + 1 := by simp
      rw [hlen]
      congr 1
      have hmod : n % 10 + 10 * (n / 10) = n := Nat.mod_add_div n 10
      ring_nf
      omega

theorem parseDigits_natToStr (n : Nat) : parseDigits (natToStr n) = some n := by
  have hne : (natToStr n).isEmpty = false := by
    rcases hh : natToStr n with _ | ⟨c, cs⟩
    · exact absurd hh (natToStr_ne_nil n)
    · rfl
  rw [parseDigits, hne]
  simp only [Bool.false_eq_true, if_false]
  rw [parseDigitsAux_natToStr]
  simp

theorem pyInt_natToStr (n : Nat) : pyInt (natToStr n) = some (n : Int) := by
  obtain ⟨m, cs, hm, heq⟩ := natToStr_head n
  rw [heq, pyInt]
  simp only [digitChar_ne_dash m, digitChar_ne_plus m, if_false]
  rw [← heq, parseDigits_natToStr]
  simp

theorem pyInt_intToStr (k : Int) : pyInt (intToStr k) = some k := by
  rw [intToStr]
  by_cases h : k < 0
  · simp only [h, if_true]
    rw [pyInt]
    simp only [if_pos rfl]
    rw [parseDigits_natToStr]
    show some (-(k.natAbs : Int)) = some k
    congr 1
    omega
  · simp only [h, if_false]
    rw [pyInt_natToStr]
    congr 1
    omega

theorem natToStr_ne_dot (n : Nat) : '.' ∉ natToStr n := by
  intro hmem
  obtain ⟨m, _, hc⟩ := natToStr_mem n '.' hmem
  exact digitChar_ne_dot m hc.symm

theorem intToStr_ne_dot (k : Int) : '.' ∉ intToStr k := by
  unfold intToStr
  by_cases h : k < 0
  · simp only [h, if_true, List.mem_cons]
    rintro (h1 | h2)
    · exact absurd h1 (by decide)
    · exact natToStr_ne_dot _ h2
  · simp only [h, if_false]
    exact natToStr_ne_dot _

theorem afterLastSep_append {sep : Char} {b : List Char} (hb : sep ∉ b) :
    ∀ a, afterLastSep sep (a ++ sep :: b) = b := by
  intro a
  induction a with
  | nil =>
    simp only [List.nil_append, afterLastSep]
    simp [hb]
  | cons x xs ih =>
    simp only [List.cons_append, afterLastSep]
    have hmem : sep ∈ xs ++ sep :: b := by simp
    simp [hmem, ih]

theorem afterLastSep_no_sep {sep : Char} {s : List Char} (hs : sep ∉ s) :
    afterLastSep sep s = s := by
  cases s with
  | nil => rfl
  | cons c cs =>
    simp only [List.mem_cons, not_or] at hs
    simp [afterLastSep, hs.2, hs.1, Ne.symm hs.1]

/-! ### Prefix lemmas used by the version proofs -/

theorem isPrefixOf_append_self : ∀ (a b : List Char), a.isPrefixOf (a ++ b) = true := by
  intro a b
  induction a with
  | nil => simp
  | cons x xs ih => simp [List.isPrefixOf, ih]

theorem eq_of_isPrefixOf_append {t s r : List Char} (hlen : t.length = s.length)
    (h : t.isPrefixOf (s ++ r) = true) : t = s := by
  induction t generalizing s with
  | nil =>
    cases s with
    | nil => rfl
    | cons y ys => simp at hlen
  | cons x xs ih =>
    cases s with
    | nil => simp at hlen
    | cons y ys =>
      simp only [List.cons_append, List.isPrefixOf, Bool.and_eq_true, beq_iff_eq] at h
      simp only [List.length_cons, Nat.add_right_cancel_iff] at hlen
      rw [h.1, ih hlen h.2]

theorem versionCounter_mk (today : List Char) (k : Int) :
    versionCounter (today ++ '.' :: intToStr k) = some k := by
  unfold versionCounter
  rw [afterLastSep_append (intToStr_ne_dot k) today, pyInt_intToStr]

theorem nextVersion_parsed {today v : List Char} (hpre : today.isPrefixOf v = true)
    {n : Int} (hc : pyInt (afterLastSep '.' v) = some n) :
    nextVersion today (some v) = today ++ '.' :: intToStr (n + 1) := by
  simp [nextVersion, hpre, hc]

theorem nextVersion_unparsed {today v : List Char} (hpre : today.isPrefixOf v = true)
    (hc : pyInt (afterLastSep '.' v) = none) :
    nextVersion today (some v) = today ++ '.' :: intToStr 1 := by
  simp [nextVersion, hpre, hc]

theorem nextVersion_newday {today v : List Char} (hpre : today.isPrefixOf v = false) :
    nextVersion today (some v) = today ++ '.' :: intToStr 1 := by
  simp [nextVersion, hpre]

/-- Every value `nextVersion` produces has the shape `<today>.<k>`. -/
theorem nextVersion_shape (today : List Char) (stored : Option (List Char)) :
    ∃ k : Int, nextVersion today stored = today ++ '.' :: intToStr k := by
  cases stored with
  | none => exact ⟨1, rfl⟩
  | some prev =>
    by_cases hpre : today.isPrefixOf prev = true
    · cases hc : pyInt (afterLastSep '.' prev) with
      | none => exact ⟨1, nextVersion_unparsed hpre hc⟩
      | some n => exact ⟨n + 1, nextVersion_parsed hpre hc⟩
    · rw [Bool.not_eq_true] at hpre
      exact ⟨1, nextVersion_newday hpre⟩

/-- A bump never returns the stored version unchanged. -/
theorem nextVersion_ne (today v : List Char) :
    nextVersion today (some v) ≠ v := by
  by_cases hpre : today.isPrefixOf v = true
  · cases hc : pyInt (afterLastSep '.' v) with
    | some n =>
      rw [nextVersion_parsed hpre hc]
      intro heq
      have h1 := versionCounter_mk today (n + 1)
      rw [heq] at h1
      unfold versionCounter at h1
      rw [hc] at h1
      simp at h1
    | none =>
      rw [nextVersion_unparsed hpre hc]
      intro heq
      have h1 := versionCounter_mk today 1
      rw [heq] at h1
      unfold versionCounter at h1
      rw [hc] at h1
      simp at h1
  · rw [Bool.not_eq_true] at hpre
    rw [nextVersion_newday hpre]
    intro heq
    rw [← heq] at hpre
    rw [isPrefixOf_append_self today ('.' :: intToStr 1)] at hpre
    simp at hpre

/-- Bumping on the same day a version `<today>.<k>` was issued increments
the counter. -/
theorem nextVersion_same_day (today : List Char) (k : Int) :
    nextVersion today (some (today ++ '.' :: intToStr k)) = today ++ '.' :: intToStr (k + 1) := by
  have hpre := isPrefixOf_append_self today ('.' :: intToStr k)
  have hc : pyInt (afterLastSep '.' (today ++ '.' :: intToStr k)) = some k := by
    rw [afterLastSep_append (intToStr_ne_dot k) today, pyInt_intToStr]
  rw [nextVersion_parsed hpre hc]

/-- Bumping on a different day than the stored version restarts at `.1`. -/
theorem nextVersion_other_day {today1 today2 : List Char}
    (hlen : today1.length = today2.length) (hne : today2 ≠ today1) (k : Int) :
    nextVersion today2 (some (today1 ++ '.' :: intToStr k)) = today2 ++ '.' :: intToStr 1 := by
  have hpre : today2.isPrefixOf (today1 ++ '.' :: intToStr k) = false := by
    by_contra hcon
    rw [Bool.not_eq_false] at hcon
    exact hne (eq_of_isPrefixOf_append hlen.symm hcon)
  rw [nextVersion_newday hpre]


/-! ### Dictionary lemmas -/

theorem dictGet_dictSet_same (d : Doc) (k : String) (v : JVal) :
    dictGet (dictSet d k v) k = some v := by
  induction d with
  | nil => simp [dictSet, dictGet]
  | cons kv rest ih =>
    obtain ⟨k', v'⟩ := kv
    by_cases h : k' = k
    · simp [dictSet, dictGet, h]
    · simp [dictSet, dictGet, h, ih]

theorem dictGet_dictSet_other (d : Doc) (k k2 : String) (v : JVal) (hne : k2 ≠ k) :
    dictGet (dictSet d k v) k2 = dictGet d k2 := by
  induction d with
  | nil => simp [dictSet, dictGet, Ne.symm hne]
  | cons kv rest ih =>
    obtain ⟨k', v'⟩ := kv
    by_cases h : k' = k
    · subst h
      have hne2 : k' ≠ k2 := Ne.symm hne
      simp [dictSet, dictGet, hne2]
    · by_cases h2 : k' = k2
      · subst h2
        simp [dictSet, dictGet, h]
      · simp [dictSet, dictGet, h, h2, ih]

theorem dictGet_eq_none_of_not_mem (p : Doc) (k : String) (h : k ∉ p.map Prod.fst) :
    dictGet p k = none := by
  induction p with
  | nil => rfl
  | cons kv rest ih =>
    obtain ⟨k0, v0⟩ := kv
    simp only [List.map_cons, List.mem_cons, not_or] at h
    have h1 : k0 ≠ k := Ne.symm h.1
    simp [dictGet, h1, ih h.2]

theorem dictGet_dictUpdate_none (p : Doc) (k : String) (hp : dictGet p k = none) :
    ∀ d, dictGet (dictUpdate d p) k = dictGet d k := by
  induction p with
  | nil => intro d; rfl
  | cons kv rest ih =>
    intro d
    obtain ⟨k0, v0⟩ := kv
    simp only [dictGet] at hp
    by_cases h : k0 = k
    · simp [h] at hp
    · simp only [h, if_false] at hp
      show dictGet (dictUpdate (dictSet d k0 v0) rest) k = dictGet d k
      rw [ih hp, dictGet_dictSet_other d k0 k v0 (fun hh => h hh.symm)]

theorem dictGet_dictUpdate_some (p : Doc) (k : String) (v : JVal)
    (hnd : (p.map Prod.fst).Nodup) (hp : dictGet p k = some v) :
    ∀ d, dictGet (dictUpdate d p) k = some v := by
  induction p with
  | nil => simp [dictGet] at hp
  | cons kv rest ih =>
    intro d
    obtain ⟨k0, v0⟩ := kv
    simp only [List.map_cons, List.nodup_cons] at hnd
    by_cases h : k0 = k
    · subst h
      simp only [dictGet, if_pos rfl] at hp
      injection hp with hv
      have hrest : dictGet rest k0 = none :=
        dictGet_eq_none_of_not_mem rest k0 hnd.1
      show dictGet (dictUpdate (dictSet d k0 v0) rest) k0 = some v
      rw [dictGet_dictUpdate_none rest k0 hrest, dictGet_dictSet_same, hv]
    · simp only [dictGet, h, if_false] at hp
      show dictGet (dictUpdate (dictSet d k0 v0) rest) k = some v
      exact ih hnd.2 hp _

theorem dictGet_filter_none (pr : String × JVal → Bool) (p : Doc) (k : String)
    (hp : dictGet p k = none) : dictGet (p.filter pr) k = none := by
  induction p with
  | nil => rfl
  | cons kv rest ih =>
    obtain ⟨k0, v0⟩ := kv
    simp only [dictGet] at hp
    by_cases h : k0 = k
    · simp [h] at hp
    · simp only [h, if_false] at hp
      by_cases hf : pr (k0, v0) = true
      · simp [List.filter, hf, dictGet, h, ih hp]
      · simp only [Bool.not_eq_true] at hf
        simp [List.filter, hf, ih hp]

theorem dictGet_filter_some_true (pr : String × JVal → Bool) (p : Doc) (k : String) (v : JVal)
    (hnd : (p.map Prod.fst).Nodup) (hp : dictGet p k = some v) (ht : pr (k, v) = true) :
    dictGet (p.filter pr) k = some v := by
  induction p with
  | nil => simp [dictGet] at hp
  | cons kv rest ih =>
    obtain ⟨k0, v0⟩ := kv
    simp only [List.map_cons, List.nodup_cons] at hnd
    by_cases h : k0 = k
    · subst h
      simp only [dictGet, if_pos rfl] at hp
      injection hp with hv
      subst hv
      simp [List.filter, ht, dictGet]
    · simp only [dictGet, h, if_false] at hp
      by_cases hf : pr (k0, v0) = true
      · simp [List.filter, hf, dictGet, h, ih hnd.2 hp]
      · simp only [Bool.not_eq_true] at hf
        simp [List.filter, hf, ih hnd.2 hp]

theorem dictGet_filter_some_false (pr : String × JVal → Bool) (p : Doc) (k : String) (v : JVal)
    (hnd : (p.map Prod.fst).Nodup) (hp : dictGet p k = some v) (hf : pr (k, v) = false) :
    dictGet (p.filter pr) k = none := by
  induction p with
  | nil => simp [dictGet] at hp
  | cons kv rest ih =>
    obtain ⟨k0, v0⟩ := kv
    simp only [List.map_cons, List.nodup_cons] at hnd
    by_cases h : k0 = k
    · subst h
      simp only [dictGet, if_pos rfl] at hp
      injection hp with hv
      subst hv
      simp only [List.filter, hf]
      exact dictGet_filter_none pr rest k0 (dictGet_eq_none_of_not_mem rest k0 hnd.1)
    · simp only [dictGet, h, if_false] at hp
      by_cases hft : pr (k0, v0) = true
      · simp [List.filter, hft, dictGet, h, ih hnd.2 hp]
      · simp only [Bool.not_eq_true] at hft
        simp [List.filter, hft, ih hnd.2 hp]

/-! ### Generic helpers -/

theorem find?_append_none {α : Type} (p : α → Bool) (l1 l2 : List α) (h : l1.find? p = none) :
    (l1 ++ l2).find? p = l2.find? p := by
  rw [List.find?_append, h, Option.none_or]

theorem forall₂_self_map {α β : Type} (R : α → β → Prop) (f : α → β) :
    ∀ l : List α, (∀ x ∈ l, R x (f x)) → List.Forall₂ R l (l.map f)
  | [], _ => List.Forall₂.nil
  | x :: xs, h =>
    List.Forall₂.cons (h x (List.mem_cons_self x xs))
      (forall₂_self_map R f xs (fun y hy => h y (List.mem_cons_of_mem x hy)))

theorem get_schema_version_state (today : List Char) (now : String) (st : St) :
    ((get_schema_version today now st).2.meta).map (fun m => m.version) =
      some (get_schema_version today now st).1 ∧
    (get_schema_version today now st).2.fields = st.fields ∧
    (get_schema_version today now st).2.expenses = st.expenses := by
  cases hm : st.meta <;> simp [get_schema_version, bump_schema_version, hm]

/-! ### Claim C2: merge law for expense updates -/

/-- C2: the data merge of an expense update overwrites exactly the keys
whose patch value is non-null (a null patch value never clears a field),
and a status override always overwrites `status` after the data merge,
whatever the patch contains. -/
theorem expense_merge_law (data patch : Doc) (s : String)
    (hnd : (patch.map Prod.fst).Nodup) :
    (∀ k, (dictGet patch k = none ∨ dictGet patch k = some JVal.null) →
        dictGet (mergeNonNull data patch) k = dictGet data k) ∧
    (∀ k v, dictGet patch k = some v → isNullV v = false →
        dictGet (mergeNonNull data patch) k = some v) ∧
    (∀ p2 : Option Doc,
        dictGet (applyExpensePatch data p2 (some s)) "status" = some (JVal.str s)) := by
  refine ⟨?_, ?_, ?_⟩
  · intro k hk
    unfold mergeNonNull
    rcases hk with hk | hk
    · exact dictGet_dictUpdate_none _ k (dictGet_filter_none _ patch k hk) data
    · exact dictGet_dictUpdate_none _ k
        (dictGet_filter_some_false _ patch k JVal.null hnd hk rfl) data
  · intro k v hk hv
    unfold mergeNonNull
    have ht : (fun kv : String × JVal => !isNullV kv.2) (k, v) = true := by
      simp only [Bool.not_eq_true']
      exact hv
    have hnd2 : ((patch.filter (fun kv => !isNullV kv.2)).map Prod.fst).Nodup :=
      List.Nodup.sublist (List.Sublist.map Prod.fst (List.filter_sublist patch)) hnd
    exact dictGet_dictUpdate_some _ k v hnd2
      (dictGet_filter_some_true _ patch k v hnd hk ht) data
  · intro p2
    cases p2 <;> simp [applyExpensePatch, dictGet_dictSet_same]

/-- Witness for C2 at the spec's own example: `{vendor: null}` does not
clear, `{vendor: "Acme"}` overwrites, a status override beats the patch. -/
theorem expense_merge_law_witness :
    dictGet (mergeNonNull [("vendor", JVal.str "Old")] [("vendor", JVal.null)]) "vendor" =
      some (JVal.str "Old") ∧
    dictGet (mergeNonNull [("vendor", JVal.str "Old")] [("vendor", JVal.str "Acme")]) "vendor" =
      some (JVal.str "Acme") ∧
    dictGet (applyExpensePatch [("status", JVal.str "confirmed")]
      (some [("status", JVal.str "weird")]) (some "rejected")) "status" =
      some (JVal.str "rejected") := by
  refine ⟨?_, ?_, ?_⟩
  · exact (expense_merge_law [("vendor", JVal.str "Old")] [("vendor", JVal.null)] "x"
      (by simp)).1 "vendor" (Or.inr rfl)
  · exact (expense_merge_law [("vendor", JVal.str "Old")] [("vendor", JVal.str "Acme")] "x"
      (by simp)).2.1 "vendor" (JVal.str "Acme") rfl rfl
  · exact (expense_merge_law [("status", JVal.str "confirmed")] [("status", JVal.str "weird")]
      "rejected" (by simp)).2.2 (some [("status", JVal.str "weird")])

/-! ### Claim C10: updates are atomic on validation failure -/

/-- C10: when the merged document fails validation, `update_expense`
surfaces that very error and performs no write: the store is returned
exactly as it was. -/
theorem update_atomic_on_validation_error (st : St) (expenseId : String) (patch : Option Doc)
    (statusOverride : Option String) (now : String) (r : ExpenseRow) (e : ValErr)
    (hfind : st.expenses.find? (fun x => x.id == expenseId) = some r)
    (hval : validate st.fields (applyExpensePatch r.data patch statusOverride) = .error e) :
    update_expense st expenseId patch statusOverride now = (st, .error (.validation e)) := by
  unfold update_expense
  rw [hfind]
  simp only [hval]

/-- Witness for C10: overriding `status` with a value outside the seeded
enum leaves the store untouched and surfaces the enum error. -/
theorem update_atomic_on_validation_error_witness :
    update_expense stC1 "exp_1" none (some "weird") "T2" =
      (stC1, .error (.validation (.invalidEnum "status" (JVal.str "weird")
        ["pending_confirmation", "confirmed", "rejected"]))) :=
  update_atomic_on_validation_error stC1 "exp_1" none (some "weird") "T2" rowC1
    (.invalidEnum "status" (JVal.str "weird")
      ["pending_confirmation", "confirmed", "rejected"]) rfl rfl

/-! ### Claim C9: round trip of unmodeled keys -/

/-- C9: creating an expense from a document carrying an unmodeled `extra`
value and reading it back by id returns that value unchanged — keys outside
the schema are stored verbatim. -/
theorem create_then_get_extra_roundtrip (st : St) (payload : Doc) (today : List Char)
    (now newId : String) (st2 : St) (summ : CreateSummary) (extraVal : JVal)
    (hnd : (payload.map Prod.fst).Nodup)
    (hfresh : ∀ r ∈ st.expenses, r.id ≠ newId)
    (hx : dictGet payload "extra" = some extraVal)
    (hcreate : create_expense payload today now newId st = .ok (st2, summ)) :
    ∃ res : Doc, get_expense st2 newId = .ok res ∧ dictGet res "extra" = some extraVal := by
  unfold create_expense at hcreate
  cases hv : validate st.fields payload with
  | error e => rw [hv] at hcreate; exact absurd hcreate (by simp)
  | ok u =>
    rw [hv] at hcreate
    simp only [Except.ok.injEq, Prod.mk.injEq] at hcreate
    obtain ⟨hst2, _⟩ := hcreate
    have hexp := (get_schema_version_state today now st).2.2
    refine ⟨expenseView ⟨newId, now, now, (get_schema_version today now st).1, payload⟩, ?_, ?_⟩
    · have hnone : (get_schema_version today now st).2.expenses.find?
          (fun r => r.id == newId) = none := by
        rw [hexp]
        exact List.find?_eq_none.mpr (fun r hr => by
          simp only [beq_iff_eq]
          exact hfresh r hr)
      have hfind2 : ({ (get_schema_version today now st).2 with
          expenses := (get_schema_version today now st).2.expenses ++
            [⟨newId, now, now, (get_schema_version today now st).1, payload⟩] } : St).expenses.find?
            (fun r => r.id == newId) =
          some ⟨newId, now, now, (get_schema_version today now st).1, payload⟩ := by
        show ((get_schema_version today now st).2.expenses ++ [_]).find? _ = _
        rw [find?_append_none _ _ _ hnone]
        simp [List.find?]
      rw [← hst2]
      unfold get_expense
      rw [hfind2]
    · unfold expenseView
      exact dictGet_dictUpdate_some payload "extra" extraVal hnd hx _

/-- Witness for C9: a document whose `extra.foo = "bar"` survives the
create-then-get round trip against the seeded schema. -/
theorem create_then_get_extra_roundtrip_witness :
    ∃ st2 summ res,
      create_expense payloadExtra "2025-06-01".data "T1" "exp_9" seedSt = .ok (st2, summ) ∧
      get_expense st2 "exp_9" = .ok res ∧
      dictGet res "extra" = some (JVal.obj [("foo", JVal.str "bar")]) := by
  obtain ⟨res, h1, h2⟩ := create_then_get_extra_roundtrip seedSt payloadExtra
    "2025-06-01".data "T1" "exp_9" _ _ (JVal.obj [("foo", JVal.str "bar")])
    (by simp [payloadExtra])
    (fun r hr => absurd hr (List.not_mem_nil r))
    rfl rfl
  exact ⟨_, _, res, rfl, h1, h2⟩

/-! ### Claim C1: schema version on update (corrected) -/

/-- C1 (amended): a successful `update_expense` refreshes `updatedAt` and
replaces `data` with the merged document, but leaves `schemaVersion` (and
`id`, `createdAt`) of every stored row exactly as they were: the UPDATE
statement does not re-stamp the version. -/
theorem update_leaves_schema_version (st : St) (expenseId : String) (patch : Option Doc)
    (statusOverride : Option String) (now : String) (st' : St) (res : Doc)
    (hids : (st.expenses.map ExpenseRow.id).Nodup)
    (h : update_expense st expenseId patch statusOverride now = (st', Except.ok res)) :
    List.Forall₂ (fun x y => y.id = x.id ∧ y.created_at = x.created_at ∧
      y.schema_version = x.schema_version ∧
      (x.id ≠ expenseId → y = x) ∧
      (x.id = expenseId → y.updated_at = now ∧
        y.data = applyExpensePatch x.data patch statusOverride))
      st.expenses st'.expenses := by
  unfold update_expense at h
  cases hfind : st.expenses.find? (fun x => x.id == expenseId) with
  | none => rw [hfind] at h; simp at h
  | some r =>
    rw [hfind] at h
    cases hv : validate st.fields (applyExpensePatch r.data patch statusOverride) with
    | error e =>
      simp only [hv] at h
      simp at h
    | ok u =>
      simp only [hv, Prod.mk.injEq] at h
      obtain ⟨hst, _⟩ := h
      have hrmem := List.mem_of_find?_eq_some hfind
      have hrid0 := @List.find?_some _ (fun x : ExpenseRow => x.id == expenseId) r
        st.expenses hfind
      have hrid : r.id = expenseId := by simpa using hrid0
      rw [← hst]
      apply forall₂_self_map
      intro x hx
      by_cases hb : x.id = expenseId
      · have hxr : x = r :=
          List.inj_on_of_nodup_map hids hx hrmem (by rw [hb, hrid])
        have hbeq : (x.id == expenseId) = true := by rw [beq_iff_eq]; exact hb
        rw [if_pos hbeq]
        exact ⟨rfl, rfl, rfl, fun hne => absurd hb hne, fun _ => ⟨rfl, by rw [hxr]⟩⟩
      · have hbeq : ¬ (x.id == expenseId) = true := by
          rw [beq_iff_eq]
          exact hb
        rw [if_neg hbeq]
        exact ⟨rfl, rfl, rfl, fun _ => rfl, fun hcon => absurd hcon hb⟩

/-- Counterexample to C1 as stated: a successful status-only update leaves
the stored record stamped `2025-01-01.1` even though the current schema
version at update time is `2025-06-01.3` — no re-stamping happens. -/
theorem update_restamp_counterexample :
    (∃ d, (update_expense stC1 "exp_1" none (some "rejected") "T2").2 = Except.ok d) ∧
    ((update_expense stC1 "exp_1" none (some "rejected") "T2").1.expenses.map
      (fun r => r.schema_version)) = ["2025-01-01.1".data] ∧
    (get_schema_version "2025-06-01".data "T3"
      (update_expense stC1 "exp_1" none (some "rejected") "T2").1).1 = "2025-06-01.3".data ∧
    ("2025-01-01.1".data : List Char) ≠ "2025-06-01.3".data := by
  refine ⟨⟨_, rfl⟩, rfl, rfl, by decide⟩

/-- Witness for the amended C1 on the concrete store. -/
theorem update_leaves_schema_version_witness :
    ∃ st' res, update_expense stC1 "exp_1" none (some "rejected") "T2" = (st', Except.ok res) ∧
      List.Forall₂ (fun x y => y.id = x.id ∧ y.created_at = x.created_at ∧
        y.schema_version = x.schema_version ∧
        (x.id ≠ "exp_1" → y = x) ∧
        (x.id = "exp_1" → y.updated_at = "T2" ∧
          y.data = applyExpensePatch x.data none (some "rejected")))
        stC1.expenses st'.expenses := by
  refine ⟨_, _, rfl, ?_⟩
  exact update_leaves_schema_version stC1 "exp_1" none (some "rejected") "T2" _ _
    (by simp [stC1, rowC1]) rfl

/-! ### Validator characterization -/

theorem validate_ok_iff (fields : List FieldDef) (p : Doc) :
    validate fields p = .ok () ↔
      ((∀ f ∈ fields, f.enabled = true → f.required = true → isNoneAt p f.key = false) ∧
       (∀ kv ∈ p, enumViolation fields kv.1 kv.2 = false)) := by
  unfold validate
  cases hreq : fields.find? (fun f => f.enabled && f.required && isNoneAt p f.key) with
  | some f =>
    constructor
    · intro h; simp at h
    · rintro ⟨h1, h2⟩
      have hmem := List.mem_of_find?_eq_some hreq
      have hpred := @List.find?_some _
        (fun f => f.enabled && f.required && isNoneAt p f.key) f fields hreq
      simp only [Bool.and_eq_true] at hpred
      exact absurd (h1 f hmem hpred.1.1 hpred.1.2) (by simp [hpred.2])
  | none =>
    have hall := List.find?_eq_none.mp hreq
    cases henum : p.find? (fun kv => enumViolation fields kv.1 kv.2) with
    | some kv =>
      constructor
      · intro h; simp at h
      · rintro ⟨h1, h2⟩
        have hmem := List.mem_of_find?_eq_some henum
        have hpred := @List.find?_some _
          (fun kv : String × JVal => enumViolation fields kv.1 kv.2) kv p henum
        exact absurd hpred (by simp [h2 kv hmem])
    | none =>
      have hall2 := List.find?_eq_none.mp henum
      constructor
      · intro _
        constructor
        · intro f hf he hr
          have hnf := hall f hf
          by_contra hcon
          rw [Bool.not_eq_false] at hcon
          exact hnf (by simp [he, hr, hcon])
        · intro kv hkv
          have hnk := hall2 kv hkv
          rw [Bool.not_eq_true] at hnk
          exact hnk
      · intro _; rfl

theorem validate_invalidEnum_elim (fields : List FieldDef) (p : Doc) (k : String) (v : JVal)
    (allowed : List String)
    (h : validate fields p = .error (.invalidEnum k v allowed)) :
    (k, v) ∈ p ∧ enumViolation fields k v = true ∧ allowed = enumOptsOf fields k := by
  unfold validate at h
  cases hreq : fields.find? (fun f => f.enabled && f.required && isNoneAt p f.key) with
  | some f =>
    rw [hreq] at h
    simp at h
  | none =>
    rw [hreq] at h
    cases henum : p.find? (fun kv => enumViolation fields kv.1 kv.2) with
    | none => rw [henum] at h; simp at h
    | some kv =>
      rw [henum] at h
      simp only [Except.error.injEq, ValErr.invalidEnum.injEq] at h
      obtain ⟨hk, hv, ha⟩ := h
      have hmem := List.mem_of_find?_eq_some henum
      have hpred := @List.find?_some _
        (fun kv : String × JVal => enumViolation fields kv.1 kv.2) kv p henum
      have hkv : kv = (k, v) := Prod.ext hk hv
      subst hkv
      refine ⟨hmem, ?_, ?_⟩
      · simpa using hpred
      · exact ha.symm

theorem enumViolation_eq_false_iff (fields : List FieldDef) (k : String) (v : JVal) :
    enumViolation fields k v = false ↔
      ∀ f, findEnabledField fields k = some f → f.type = "enum" →
        (optsOf f).isEmpty = false → jvalMemStr v (optsOf f) = true := by
  unfold enumViolation
  cases hf : findEnabledField fields k with
  | none => simp
  | some f =>
    simp only [Option.some.injEq]
    constructor
    · intro h f' hff' htype hempty
      subst hff'
      rw [htype] at h
      simp [hempty] at h
      simpa using h
    · intro h
      by_cases htype : f.type = "enum"
      · by_cases hempty : (optsOf f).isEmpty = true
        · simp [htype, hempty]
        · rw [Bool.not_eq_true] at hempty
          have hm := h f rfl htype hempty
          simp [htype, hempty, hm]
      · have ht : (f.type == "enum") = false := by simp [htype]
        simp [ht]

/-! ### Claim C6: enum validation -/

/-- C6: once the required checks pass, validation succeeds iff every
submitted key matching an enabled enum field with a non-empty allowed list
carries a case-sensitive member of that list; a failure surfaces
`InvalidEnumValue` naming the offending key, the submitted value and the
allowed list, and an empty or absent list never constrains. -/
theorem enum_check_characterization (fields : List FieldDef) (payload : Doc)
    (hreq : ∀ f ∈ fields, f.enabled = true → f.required = true →
      isNoneAt payload f.key = false) :
    ((validate fields payload = .ok ()) ↔
      ∀ kv ∈ payload, ∀ f, findEnabledField fields kv.1 = some f → f.type = "enum" →
        (optsOf f).isEmpty = false → jvalMemStr kv.2 (optsOf f) = true) ∧
    (∀ k v allowed, validate fields payload = .error (.invalidEnum k v allowed) →
      (k, v) ∈ payload ∧ ∃ f, findEnabledField fields k = some f ∧ f.type = "enum" ∧
        allowed = optsOf f ∧ (optsOf f).isEmpty = false ∧ jvalMemStr v (optsOf f) = false) := by
  constructor
  · rw [validate_ok_iff]
    constructor
    · rintro ⟨_, h2⟩ kv hkv
      exact (enumViolation_eq_false_iff fields kv.1 kv.2).mp (h2 kv hkv)
    · intro h
      exact ⟨hreq, fun kv hkv =>
        (enumViolation_eq_false_iff fields kv.1 kv.2).mpr (h kv hkv)⟩
  · intro k v allowed herr
    obtain ⟨hmem, hviol, hall⟩ := validate_invalidEnum_elim fields payload k v allowed herr
    refine ⟨hmem, ?_⟩
    unfold enumViolation at hviol
    cases hf : findEnabledField fields k with
    | none => rw [hf] at hviol; simp at hviol
    | some f =>
      rw [hf] at hviol
      simp only [Bool.and_eq_true, beq_iff_eq, Bool.not_eq_true'] at hviol
      refine ⟨f, rfl, hviol.1.1, ?_, hviol.1.2, hviol.2⟩
      rw [hall]
      unfold enumOptsOf
      rw [hf]

/-- Witness for C6: the spec scenario — `currency: "EUR"` against the
seeded allowed list `["ARS", "USD"]` fails naming `currency`, `"EUR"` and
the allowed list. -/
theorem enum_check_characterization_witness :
    validate seededFields payloadEUR =
      .error (.invalidEnum "currency" (JVal.str "EUR") ["ARS", "USD"]) ∧
    (("currency", JVal.str "EUR") ∈ payloadEUR ∧
      ∃ f, findEnabledField seededFields "currency" = some f ∧ f.type = "enum" ∧
        ["ARS", "USD"] = optsOf f ∧ (optsOf f).isEmpty = false ∧
        jvalMemStr (JVal.str "EUR") (optsOf f) = false) := by
  refine ⟨rfl, ?_⟩
  exact (enum_check_characterization seededFields payloadEUR (by decide)).2
    "currency" (JVal.str "EUR") ["ARS", "USD"] rfl

/-! ### Claim C5: disabling a required field -/

theorem findEnabledField_disable_self (fields : List FieldDef) (key : String) :
    findEnabledField (fields.map
      (fun f => if f.key == key then { f with enabled := false } else f)) key = none := by
  induction fields with
  | nil => rfl
  | cons f rest ih =>
    simp only [List.map_cons]
    unfold findEnabledField at ih ⊢
    by_cases hk : (f.key == key) = true
    · rw [if_pos hk, List.filter_cons]
      simp only [show ({ f with enabled := false } : FieldDef).enabled = false from rfl,
        Bool.false_eq_true, if_false]
      exact ih
    · rw [if_neg hk, List.filter_cons]
      by_cases he : f.enabled = true
      · simp only [he, if_true]
        rw [List.find?_cons_of_neg _ (by simpa using hk)]
        exact ih
      · simp only [Bool.not_eq_true] at he
        simp only [he, Bool.false_eq_true, if_false]
        exact ih

theorem findEnabledField_disable_other (fields : List FieldDef) (key k2 : String)
    (hne : k2 ≠ key) :
    findEnabledField (fields.map
      (fun f => if f.key == key then { f with enabled := false } else f)) k2 =
    findEnabledField fields k2 := by
  induction fields with
  | nil => rfl
  | cons f rest ih =>
    simp only [List.map_cons]
    unfold findEnabledField at ih ⊢
    by_cases hk : (f.key == key) = true
    · rw [if_pos hk, List.filter_cons, List.filter_cons]
      simp only [show ({ f with enabled := false } : FieldDef).enabled = false from rfl,
        Bool.false_eq_true, if_false]
      by_cases he : f.enabled = true
      · simp only [he, if_true]
        have hfk : f.key = key := by simpa using hk
        rw [List.find?_cons_of_neg _ (by simp [hfk, Ne.symm hne])]
        exact ih
      · simp only [Bool.not_eq_true] at he
        simp only [he, Bool.false_eq_true, if_false]
        exact ih
    · rw [if_neg hk, List.filter_cons, List.filter_cons]
      by_cases he : f.enabled = true
      · simp only [he, if_true]
        by_cases hk2 : (f.key == k2) = true
        · rw [@List.find?_cons_of_pos _ (fun f => f.key == k2) f _ hk2,
            @List.find?_cons_of_pos _ (fun f => f.key == k2) f _ hk2]
        · rw [@List.find?_cons_of_neg _ (fun f => f.key == k2) f _ hk2,
            @List.find?_cons_of_neg _ (fun f => f.key == k2) f _ hk2]
          exact ih
      · simp only [Bool.not_eq_true] at he
        simp only [he, Bool.false_eq_true, if_false]
        exact ih

/-- C5: after (soft-)deleting a required field, a candidate document with
no value for that key validates successfully, provided the rest of the
document satisfies the remaining schema — required-ness is enforced only
while the field is enabled. -/
theorem disable_required_field_validates (st : St) (key : String) (today : List Char)
    (now : String) (st1 : St) (payload : Doc)
    (hdel : delete_field key false today now st = .ok st1)
    (hmissing : isNoneAt payload key = true)
    (hother : ∀ f ∈ st.fields, f.enabled = true → f.required = true → f.key ≠ key →
      isNoneAt payload f.key = false)
    (henum : ∀ kv ∈ payload, kv.1 ≠ key → enumViolation st.fields kv.1 kv.2 = false) :
    validate st1.fields payload = .ok () := by
  unfold delete_field at hdel
  by_cases hany : (st.fields.any (fun f => f.key == key)) = true
  · rw [if_pos hany] at hdel
    simp only [Bool.false_eq_true, if_false, Except.ok.injEq] at hdel
    have hfields : st1.fields = st.fields.map
        (fun f => if f.key == key then { f with enabled := false } else f) := by
      rw [← hdel]
      rfl
    rw [hfields, validate_ok_iff]
    constructor
    · intro f' hf' he hr
      rw [List.mem_map] at hf'
      obtain ⟨f, hf, hgf⟩ := hf'
      by_cases hk : (f.key == key) = true
      · rw [if_pos hk] at hgf
        rw [← hgf] at he
        exact absurd he (by simp)
      · rw [if_neg hk] at hgf
        subst hgf
        exact hother f hf he hr (by simpa using hk)
    · intro kv hkv
      by_cases hkey : kv.1 = key
      · unfold enumViolation
        rw [hkey, findEnabledField_disable_self]
      · have hv := henum kv hkv hkey
        unfold enumViolation at hv ⊢
        rw [findEnabledField_disable_other st.fields key kv.1 hkey]
        exact hv
  · rw [if_neg hany] at hdel
    exact absurd hdel (by simp)

/-- Witness for C5: disabling the required `currency` field of the seeded
schema lets a document without `currency` validate. -/
theorem disable_required_field_validates_witness :
    ∃ st1, delete_field "currency" false "2025-06-01".data "T1" seedSt = .ok st1 ∧
      validate st1.fields payloadNoCurrency = .ok () := by
  refine ⟨_, rfl, ?_⟩
  exact disable_required_field_validates seedSt "currency" "2025-06-01".data "T1" _
    payloadNoCurrency rfl rfl (by decide) (by decide)

/-! ### Claim C3: the bump law across days -/

theorem take_length_append (a b : List Char) : (a ++ b).take a.length = a := by
  simp

/-- C3: bumping computes the next version from the supplied current date
(the code reads it from the clock): a same-day bump increments the stored
counter by one, a bump on a different calendar day restarts at `.1` with
the new date prefix. -/
theorem bump_day_law (today1 today2 : List Char) (stored : Option (List Char))
    (hlen : today1.length = today2.length) :
    ∃ k1 : Int,
      nextVersion today1 stored = today1 ++ '.' :: intToStr k1 ∧
      versionCounter (nextVersion today1 stored) = some k1 ∧
      (today2 = today1 →
        nextVersion today2 (some (nextVersion today1 stored)) =
          today1 ++ '.' :: intToStr (k1 + 1) ∧
        versionCounter (nextVersion today2 (some (nextVersion today1 stored))) =
          some (k1 + 1)) ∧
      (today2 ≠ today1 →
        nextVersion today2 (some (nextVersion today1 stored)) =
          today2 ++ '.' :: intToStr 1 ∧
        versionCounter (nextVersion today2 (some (nextVersion today1 stored))) = some 1 ∧
        (nextVersion today1 stored).take today1.length = today1 ∧
        (nextVersion today2 (some (nextVersion today1 stored))).take today2.length =
          today2) := by
  obtain ⟨k1, hk1⟩ := nextVersion_shape today1 stored
  refine ⟨k1, hk1, ?_, ?_, ?_⟩
  · rw [hk1]
    exact versionCounter_mk today1 k1
  · intro heq
    subst heq
    rw [hk1, nextVersion_same_day]
    exact ⟨rfl, versionCounter_mk today2 (k1 + 1)⟩
  · intro hne
    rw [hk1, nextVersion_other_day hlen hne k1]
    exact ⟨rfl, versionCounter_mk today2 1,
      take_length_append today1 ('.' :: intToStr k1),
      take_length_append today2 ('.' :: intToStr 1)⟩

/-- Witness for C3: two consecutive bumps starting from an empty store,
first on 2025-03-04 and then on 2025-03-05. -/
theorem bump_day_law_witness :
    nextVersion "2025-03-04".data none = "2025-03-04".data ++ '.' :: intToStr 1 ∧
    nextVersion "2025-03-05".data (some (nextVersion "2025-03-04".data none)) =
      "2025-03-05".data ++ '.' :: intToStr 1 ∧
    nextVersion "2025-03-04".data (some (nextVersion "2025-03-04".data none)) =
      "2025-03-04".data ++ '.' :: intToStr 2 := by
  obtain ⟨k1, h1, h2, hsame, hdiff⟩ :=
    bump_day_law "2025-03-04".data "2025-03-05".data none (by decide)
  obtain ⟨k1', h1', h2', hsame', hdiff'⟩ :=
    bump_day_law "2025-03-04".data "2025-03-04".data none (by decide)
  have hk1 : k1 = 1 := by
    have := h2
    rw [show nextVersion "2025-03-04".data none = "2025-03-04".data ++ '.' :: intToStr 1
      from rfl] at this
    rw [versionCounter_mk] at this
    exact (Option.some.injEq _ _ ▸ this).symm
  have hk1' : k1' = 1 := by
    have := h2'
    rw [show nextVersion "2025-03-04".data none = "2025-03-04".data ++ '.' :: intToStr 1
      from rfl] at this
    rw [versionCounter_mk] at this
    exact (Option.some.injEq _ _ ▸ this).symm
  refine ⟨by rw [h1, hk1], ?_, ?_⟩
  · exact (hdiff (by decide)).1
  · have := (hsame' rfl).1
    rw [hk1'] at this
    exact this

/-! ### Claim C7: corrupt-suffix recovery -/

/-- C7: when the stored version starts with today but its suffix does not
parse as an integer, the bump does not propagate an error — it resets the
version to `<today>.1` and persists it. -/
theorem bump_recovers_from_corrupt_suffix (today prev : List Char) (ts now : String) (st : St)
    (hmeta : st.meta = some ⟨prev, ts⟩)
    (hpre : today.isPrefixOf prev = true)
    (hbad : pyInt (afterLastSep '.' prev) = none) :
    bump_schema_version today now st =
      (today ++ '.' :: intToStr 1,
        { st with meta := some ⟨today ++ '.' :: intToStr 1, now⟩ }) := by
  simp [bump_schema_version, hmeta, nextVersion_unparsed hpre hbad]

/-- Witness for C7: the corrupt stored version `2025-03-04.x7` is reset to
`2025-03-04.1`. -/
theorem bump_recovers_from_corrupt_suffix_witness :
    bump_schema_version "2025-03-04".data "T1" stC7 =
      ("2025-03-04".data ++ '.' :: intToStr 1,
        { stC7 with meta := some ⟨"2025-03-04".data ++ '.' :: intToStr 1, "T1"⟩ }) :=
  bump_recovers_from_corrupt_suffix "2025-03-04".data "2025-03-04.x7".data "T0" "T1" stC7
    rfl (by decide) (by decide)

/-! ### Claim C4: schema mutations bump the version -/

theorem versionFacts_of_bump (today : List Char) (now1 now2 : String) (v0 : List Char)
    (stX : St) (hmeta : stX.meta.map (fun m => m.version) = some v0) :
    versionFacts today now1 now2 v0 (bump_schema_version today now1 stX).2 := by
  unfold versionFacts bump_schema_version
  refine ⟨nextVersion today (stX.meta.map (fun m : VersionRec => m.version)),
    ?_, ?_, ?_, ?_⟩
  · rfl
  · rw [hmeta]
    exact nextVersion_ne today v0
  · rfl
  · intro payload newId st2 summ hc
    unfold create_expense at hc
    cases hv : validate (bump_schema_version today now1 stX).2.fields payload with
    | error e =>
      rw [show (bump_schema_version today now1 stX).2.fields = stX.fields from rfl] at hv
      rw [hv] at hc
      exact absurd hc (by simp)
    | ok u =>
      rw [show (bump_schema_version today now1 stX).2.fields = stX.fields from rfl] at hv
      rw [hv] at hc
      simp only [Except.ok.injEq, Prod.mk.injEq] at hc
      obtain ⟨hst2, _⟩ := hc
      exact ⟨⟨newId, now2, now2,
        nextVersion today (stX.meta.map (fun m : VersionRec => m.version)),
        payload⟩, by rw [← hst2]; rfl, rfl, rfl⟩

/-- C4: after `currentVersion()` has been read, every successful
`create_field`, non-empty `update_field`, and `delete_field` (hard or
soft) leaves a persisted version different from the one read before, and
an expense created immediately afterwards is stamped with the new
version; an `update_field` with an empty change set succeeds and returns
the state — fields and version — unchanged. -/
theorem schema_mutation_bumps_version (today : List Char) (now0 now1 now2 : String)
    (st : St) (v0 : List Char) (st0 : St)
    (hget : get_schema_version today now0 st = (v0, st0)) :
    (∀ req st1, create_field req today now1 st0 = .ok st1 →
      versionFacts today now1 now2 v0 st1) ∧
    (∀ key req st1, isEmptyReq req = false → update_field key req today now1 st0 = .ok st1 →
      versionFacts today now1 now2 v0 st1) ∧
    (∀ key hard st1, delete_field key hard today now1 st0 = .ok st1 →
      versionFacts today now1 now2 v0 st1) ∧
    (∀ key req, isEmptyReq req = true → (∃ f ∈ st0.fields, f.key = key) →
      update_field key req today now1 st0 = .ok st0) := by
  have hmeta0 : st0.meta.map (fun m => m.version) = some v0 := by
    have h := (get_schema_version_state today now0 st).1
    rw [hget] at h
    exact h
  refine ⟨?_, ?_, ?_, ?_⟩
  · intro req st1 h
    unfold create_field at h
    by_cases hdup : (st0.fields.any (fun f => f.key == req.key)) = true
    · rw [if_pos hdup] at h
      exact absurd h (by simp)
    · rw [if_neg hdup] at h
      simp only [Except.ok.injEq] at h
      rw [← h]
      exact versionFacts_of_bump today now1 now2 v0 _ hmeta0
  · intro key req st1 hne h
    unfold update_field at h
    by_cases hany : (st0.fields.any (fun f => f.key == key)) = true
    · rw [if_pos hany] at h
      rw [hne] at h
      simp only [Bool.false_eq_true, if_false, Except.ok.injEq] at h
      rw [← h]
      exact versionFacts_of_bump today now1 now2 v0 _ hmeta0
    · rw [if_neg hany] at h
      exact absurd h (by simp)
  · intro key hard st1 h
    unfold delete_field at h
    by_cases hany : (st0.fields.any (fun f => f.key == key)) = true
    · rw [if_pos hany] at h
      simp only [Except.ok.injEq] at h
      rw [← h]
      exact versionFacts_of_bump today now1 now2 v0 _ hmeta0
    · rw [if_neg hany] at h
      exact absurd h (by simp)
  · intro key req hempty hex
    obtain ⟨f, hf, hkey⟩ := hex
    have hany : (st0.fields.any (fun f => f.key == key)) = true :=
      List.any_eq_true.mpr ⟨f, hf, by rw [hkey]; exact beq_self_eq_true key⟩
    unfold update_field
    rw [if_pos hany, if_pos hempty]

/-- Witness for C4: from a store with no version row, reading the version
bootstraps it, creating a field bumps it, and an empty field update is a
no-op. -/
theorem schema_mutation_bumps_version_witness :
    ∃ v0 st0, get_schema_version "2025-06-01".data "T0" stNoMeta = (v0, st0) ∧
      (∃ st1, create_field reqProject "2025-06-01".data "T1" st0 = .ok st1 ∧
        versionFacts "2025-06-01".data "T1" "T2" v0 st1) ∧
      update_field "vendor" emptyFieldReq "2025-06-01".data "T1" st0 = .ok st0 := by
  obtain ⟨h1, h2, h3, h4⟩ :=
    schema_mutation_bumps_version "2025-06-01".data "T0" "T1" "T2" stNoMeta _ _ rfl
  refine ⟨_, _, rfl, ⟨_, rfl, h1 reqProject _ rfl⟩, ?_⟩
  refine h4 "vendor" emptyFieldReq rfl ⟨⟨"vendor", "Proveedor", "string", false, true,
    some "Proveedor / comercio", none⟩, ?_, rfl⟩
  show _ ∈ seededFields
  unfold seededFields
  exact List.mem_cons_of_mem _ (List.mem_cons_of_mem _ (List.mem_cons_of_mem _
    (List.mem_cons_self _ _)))

/-! ### Claim C8: listing applies the limit before the filters -/

theorem strLtb_asymm : ∀ a b : List Char, strLtb a b = true → strLtb b a = false := by
  intro a
  induction a with
  | nil =>
    intro b h
    cases b with
    | nil => simp [strLtb] at h
    | cons c t => rfl
  | cons x xs ih =>
    intro b h
    cases b with
    | nil => simp [strLtb] at h
    | cons y ys =>
      by_cases h1 : x.toNat < y.toNat
      · have h2 : ¬ y.toNat < x.toNat := by omega
        simp [strLtb, h1, h2]
      · by_cases h2 : y.toNat < x.toNat
        · simp [strLtb, h1, h2] at h
        · simp only [strLtb, h1, if_false, h2] at h ⊢
          exact ih ys h

theorem strLtb_neg_trans : ∀ a b c : List Char, strLtb a b = false → strLtb b c = false →
    strLtb a c = false := by
  intro a
  induction a with
  | nil =>
    intro b c hab hbc
    cases b with
    | cons _ _ => simp [strLtb] at hab
    | nil =>
      cases c with
      | cons _ _ => simp [strLtb] at hbc
      | nil => rfl
  | cons x xs ih =>
    intro b c hab hbc
    cases c with
    | nil => rfl
    | cons z zs =>
      cases b with
      | nil => simp [strLtb] at hbc
      | cons y ys =>
        simp only [strLtb] at hab hbc ⊢
        by_cases h1 : x.toNat < y.toNat
        · simp [h1] at hab
        · by_cases h2 : y.toNat < z.toNat
          · simp [h2] at hbc
          · by_cases h3 : y.toNat < x.toNat
            · have hzx : z.toNat < x.toNat := by omega
              have hxz : ¬ x.toNat < z.toNat := by omega
              simp [hxz, hzx]
            · by_cases h4 : z.toNat < y.toNat
              · have hzx : z.toNat < x.toNat := by omega
                have hxz : ¬ x.toNat < z.toNat := by omega
                simp [hxz, hzx]
              · have hxz1 : ¬ x.toNat < z.toNat := by omega
                have hxz2 : ¬ z.toNat < x.toNat := by omega
                simp only [h1, if_false, h3] at hab
                simp only [h2, if_false, h4] at hbc
                simp only [hxz1, if_false, hxz2]
                exact ih ys zs hab hbc

theorem rowGe_total (a b : ExpenseRow) (h : rowGe a b = false) : rowGe b a = true := by
  unfold rowGe at h ⊢
  rw [Bool.not_eq_false'] at h
  rw [Bool.not_eq_true']
  exact strLtb_asymm _ _ h

theorem rowGe_trans (a b c : ExpenseRow) (h1 : rowGe a b = true) (h2 : rowGe b c = true) :
    rowGe a c = true := by
  unfold rowGe at h1 h2 ⊢
  rw [Bool.not_eq_true'] at h1 h2 ⊢
  exact strLtb_neg_trans _ _ _ h1 h2

theorem mem_insertRowDesc (r : ExpenseRow) (l : List ExpenseRow) (x : ExpenseRow) :
    x ∈ insertRowDesc r l ↔ x = r ∨ x ∈ l := by
  induction l with
  | nil => simp [insertRowDesc]
  | cons y ys ih =>
    unfold insertRowDesc
    by_cases h : rowGe r y = true
    · simp [h]
    · rw [if_neg h]
      simp only [List.mem_cons, ih]
      tauto

theorem pairwise_insertRowDesc (r : ExpenseRow) (l : List ExpenseRow)
    (hl : l.Pairwise (fun a b => rowGe a b = true)) :
    (insertRowDesc r l).Pairwise (fun a b => rowGe a b = true) := by
  induction l with
  | nil => simp [insertRowDesc]
  | cons y ys ih =>
    rw [List.pairwise_cons] at hl
    unfold insertRowDesc
    by_cases h : rowGe r y = true
    · rw [if_pos h, List.pairwise_cons]
      constructor
      · intro z hz
        rcases List.mem_cons.mp hz with hz | hz
        · rw [hz]; exact h
        · exact rowGe_trans r y z h (hl.1 z hz)
      · rw [List.pairwise_cons]
        exact hl
    · rw [if_neg h, List.pairwise_cons]
      constructor
      · intro z hz
        rcases (mem_insertRowDesc r ys z).mp hz with hz | hz
        · rw [hz]
          exact rowGe_total r y (by simpa using h)
        · exact hl.1 z hz
      · exact ih hl.2

theorem mem_sortByCreatedDesc (l : List ExpenseRow) (x : ExpenseRow) :
    x ∈ sortByCreatedDesc l ↔ x ∈ l := by
  induction l with
  | nil => simp [sortByCreatedDesc]
  | cons y ys ih =>
    unfold sortByCreatedDesc at ih ⊢
    simp only [List.foldr_cons]
    rw [mem_insertRowDesc]
    simp [ih]

theorem pairwise_sortByCreatedDesc (l : List ExpenseRow) :
    (sortByCreatedDesc l).Pairwise (fun a b => rowGe a b = true) := by
  induction l with
  | nil => exact List.Pairwise.nil
  | cons y ys ih =>
    unfold sortByCreatedDesc at ih ⊢
    simp only [List.foldr_cons]
    exact pairwise_insertRowDesc y _ ih

theorem collectRows_cons (fromD toD : Option PyDate)
    (vendor client category status q : Option String) (r : ExpenseRow)
    (rest : List ExpenseRow) :
    collectRows fromD toD vendor client category status q (r :: rest) =
      match rowKeep fromD toD vendor client category status q r with
      | none => none
      | some true => (collectRows fromD toD vendor client category status q rest).map
          (fun items => expenseView r :: items)
      | some false => collectRows fromD toD vendor client category status q rest := rfl

theorem collectRows_spec (fromD toD : Option PyDate)
    (vendor client category status q : Option String) :
    ∀ (l : List ExpenseRow) (items : List Doc),
      collectRows fromD toD vendor client category status q l = some items →
      ∃ sel : List ExpenseRow, items = sel.map expenseView ∧ sel.Sublist l ∧
        ∀ r ∈ sel, rowKeep fromD toD vendor client category status q r = some true := by
  intro l
  induction l with
  | nil =>
    intro items h
    simp only [collectRows, Option.some.injEq] at h
    exact ⟨[], by rw [← h]; rfl, List.nil_sublist [],
      fun r hr => absurd hr (List.not_mem_nil r)⟩
  | cons r rest ih =>
    intro items h
    have hunf := collectRows_cons fromD toD vendor client category status q r rest
    cases hk : rowKeep fromD toD vendor client category status q r with
    | none =>
      rw [hk] at hunf
      have hred : collectRows fromD toD vendor client category status q (r :: rest) =
          none := hunf
      rw [hred] at h
      simp at h
    | some b =>
      rw [hk] at hunf
      cases b with
      | true =>
        have hred : collectRows fromD toD vendor client category status q (r :: rest) =
            (collectRows fromD toD vendor client category status q rest).map
              (fun its => expenseView r :: its) := hunf
        rw [hred] at h
        cases hc : collectRows fromD toD vendor client category status q rest with
        | none => rw [hc] at h; simp at h
        | some items2 =>
          rw [hc] at h
          simp only [Option.map_some', Option.some.injEq] at h
          obtain ⟨sel, hsel1, hsel2, hsel3⟩ := ih items2 hc
          refine ⟨r :: sel, ?_, List.Sublist.cons₂ r hsel2, ?_⟩
          · rw [← h, hsel1]
            rfl
          · intro z hz
            rcases List.mem_cons.mp hz with hz | hz
            · rw [hz]; exact hk
            · exact hsel3 z hz
      | false =>
        have hred : collectRows fromD toD vendor client category status q (r :: rest) =
            collectRows fromD toD vendor client category status q rest := hunf
        rw [hred] at h
        obtain ⟨sel, h1, h2, h3⟩ := ih items h
        exact ⟨sel, h1, List.Sublist.cons r h2, h3⟩

theorem optionBool_eq_of_beq {o : Option Bool} (h : (o == some true) = true) :
    o = some true := by
  cases o with
  | none => exact absurd h (by decide)
  | some b =>
    cases b with
    | true => rfl
    | false => exact absurd h (by decide)

theorem collectRows_filter (fromD toD : Option PyDate)
    (vendor client category status q : Option String) :
    ∀ (l : List ExpenseRow) (items : List Doc),
      collectRows fromD toD vendor client category status q l = some items →
      items = (l.filter
        (fun r => rowKeep fromD toD vendor client category status q r == some true)).map
        expenseView := by
  intro l
  induction l with
  | nil =>
    intro items h
    simp only [collectRows, Option.some.injEq] at h
    rw [← h]
    rfl
  | cons r rest ih =>
    intro items h
    have hunf := collectRows_cons fromD toD vendor client category status q r rest
    cases hk : rowKeep fromD toD vendor client category status q r with
    | none =>
      rw [hk] at hunf
      have hred : collectRows fromD toD vendor client category status q (r :: rest) =
          none := hunf
      rw [hred] at h
      simp at h
    | some b =>
      rw [hk] at hunf
      cases b with
      | true =>
        have hred : collectRows fromD toD vendor client category status q (r :: rest) =
            (collectRows fromD toD vendor client category status q rest).map
              (fun its => expenseView r :: its) := hunf
        rw [hred] at h
        cases hc : collectRows fromD toD vendor client category status q rest with
        | none => rw [hc] at h; simp at h
        | some items2 =>
          rw [hc] at h
          simp only [Option.map_some', Option.some.injEq] at h
          have hp : (rowKeep fromD toD vendor client category status q r == some true) =
              true := by rw [hk]; rfl
          rw [← h, ih items2 hc, List.filter_cons, hp, if_pos rfl]
          rfl
      | false =>
        have hred : collectRows fromD toD vendor client category status q (r :: rest) =
            collectRows fromD toD vendor client category status q rest := hunf
        rw [hred] at h
        have hp : (rowKeep fromD toD vendor client category status q r == some true) =
            false := by rw [hk]; rfl
        rw [ih items h, List.filter_cons, hp]
        rfl

/-- C8 (amended): `list_expenses` applies the clamped limit to the
reverse-chronological scan BEFORE filtering: the returned items are
exactly the renderings, in `created_at`-descending order, of those rows
among the `min(max(limit,1),200)` most recent stored expenses that pass
all the ANDed filters — every window row passing the filters is returned
and nothing else is — so the count is bounded by the clamp, while
matching rows outside the window are never returned. -/
theorem list_expenses_spec (fromD toD : Option PyDate)
    (vendor client category status q : Option String) (limit : Int) (st : St)
    (items : List Doc)
    (h : list_expenses fromD toD vendor client category status q limit st = some items) :
    items.length ≤ clampLimit limit ∧ clampLimit limit ≤ 200 ∧
    ∃ sel : List ExpenseRow,
      sel = ((sortByCreatedDesc st.expenses).take (clampLimit limit)).filter
        (fun r => rowKeep fromD toD vendor client category status q r == some true) ∧
      items = sel.map expenseView ∧
      (∀ r ∈ sel, r ∈ st.expenses ∧
        rowKeep fromD toD vendor client category status q r = some true) ∧
      (∀ r ∈ (sortByCreatedDesc st.expenses).take (clampLimit limit),
        rowKeep fromD toD vendor client category status q r = some true → r ∈ sel) ∧
      sel.Pairwise (fun a b => rowGe a b = true) := by
  unfold list_expenses at h
  have hitems := collectRows_filter fromD toD vendor client category status q _ items h
  have hsub1 : (((sortByCreatedDesc st.expenses).take (clampLimit limit)).filter
      (fun r => rowKeep fromD toD vendor client category status q r == some true)).Sublist
      ((sortByCreatedDesc st.expenses).take (clampLimit limit)) :=
    List.filter_sublist _
  have htake : ((sortByCreatedDesc st.expenses).take (clampLimit limit)).Sublist
      (sortByCreatedDesc st.expenses) := List.take_sublist _ _
  have hsub := hsub1.trans htake
  refine ⟨?_, ?_, _, rfl, hitems, ?_, ?_, ?_⟩
  · rw [hitems, List.length_map]
    have hle1 := hsub1.length_le
    have hle2 : ((sortByCreatedDesc st.expenses).take (clampLimit limit)).length ≤
        clampLimit limit := by
      rw [List.length_take]
      exact Nat.min_le_left _ _
    omega
  · unfold clampLimit
    omega
  · intro r hr
    have hmemf := List.mem_filter.mp hr
    refine ⟨?_, optionBool_eq_of_beq hmemf.2⟩
    rw [← mem_sortByCreatedDesc]
    exact htake.subset hmemf.1
  · intro r hrw hkeep
    exact List.mem_filter.mpr ⟨hrw, by rw [hkeep]; rfl⟩
  · exact List.Pairwise.sublist hsub (pairwise_sortByCreatedDesc st.expenses)

/-- Counterexample to C8 as stated: with two stored expenses and
`limit = 0` (clamped to 1), a vendor filter matching only the older row
returns no items even though a stored expense satisfies every filter —
the claim's "returns exactly the stored expenses satisfying all provided
filters" fails because the limit is applied before the filters. -/
theorem list_limit_before_filter_counterexample :
    list_expenses none none (some "acme") none none none none 0 stC8 = some [] ∧
    rowKeep none none (some "acme") none none none none rowOldC8 = some true ∧
    rowOldC8 ∈ stC8.expenses := by
  refine ⟨rfl, rfl, ?_⟩
  show rowOldC8 ∈ [rowNewC8, rowOldC8]
  exact List.mem_cons_of_mem _ (List.mem_cons_self _ _)

/-- Witness for the amended C8: on the concrete store, `limit = 500` is
clamped to at most 200 results and the returned items are exactly the
renderings of the filter-passing rows of the clamped window. -/
theorem list_expenses_spec_witness :
    ∃ items, list_expenses none none none none none none none 500 stC8 = some items ∧
      items.length ≤ clampLimit 500 ∧ clampLimit 500 ≤ 200 ∧
      items = (((sortByCreatedDesc stC8.expenses).take (clampLimit 500)).filter
        (fun r => rowKeep none none none none none none none r == some true)).map
        expenseView := by
  obtain ⟨hlen, h200, sel, hseleq, hitems, _⟩ :=
    list_expenses_spec none none none none none none none 500 stC8 _ rfl
  refine ⟨_, rfl, hlen, h200, ?_⟩
  rw [hitems, hseleq]
